import Mathlib

set_option maxHeartbeats 1000000

/-!
Verification development for the seller-discovery event loop
(`swap/src/cli/list_sellers.rs`) and the wire codec layer
(`swap/src/network/request_response.rs`) of the xmr-btc-swap repository.

Bytes are modelled as natural numbers, byte strings as `List Nat`.
-/

/-! ## Length-prefixed framing (libp2p `upgrade::write_one` / `upgrade::read_one`) -/

/-- Message receive buffer cap, `BUF_SIZE` in `request_response.rs`. -/
def BUF_SIZE : Nat := 1024 * 1024

/-- Unsigned LEB128 varint encoding of a length, as produced by the
length prefix of `upgrade::write_one`. -/
def varintEncode (n : Nat) : List Nat :=
  if h : n < 128 then [n]
  else (n % 128 + 128) :: varintEncode (n / 128)
termination_by n
decreasing_by exact Nat.div_lt_self (by omega) (by omega)

/-- Unsigned LEB128 varint decoding, as performed by `upgrade::read_one`
when it reads the length prefix. Returns the value and remaining bytes. -/
def varintDecode : List Nat → Option (Nat × List Nat)
  | [] => none
  | b :: rest =>
    if b < 128 then some (b, rest)
    else
      match varintDecode rest with
      | some (m, r) => some (m * 128 + (b - 128), r)
      | none => none

/-- Errors of `upgrade::read_one` (`ReadOneError`): an underlying I/O
error, or a frame whose declared length exceeds the cap. -/
inductive ReadOneErr where
  | ioErr
  | tooLarge
deriving DecidableEq

/-- `upgrade::write_one`: varint length prefix followed by the payload. -/
def write_one (payload : List Nat) : List Nat :=
  varintEncode payload.length ++ payload

/-- `upgrade::read_one`: decode the varint length, reject it when it is
above `maxSize`, otherwise read exactly that many payload bytes; the
remaining stream bytes are returned alongside. -/
def read_one (maxSize : Nat) (input : List Nat) : Except ReadOneErr (List Nat × List Nat) :=
  match varintDecode input with
  | none => .error .ioErr
  | some (len, rest) =>
    if len > maxSize then .error .tooLarge
    else if len ≤ rest.length then .ok (rest.take len, rest.drop len)
    else .error .ioErr

theorem varintDecode_varintEncode (n : Nat) :
    ∀ rest : List Nat, varintDecode (varintEncode n ++ rest) = some (n, rest) := by
  induction n using Nat.strong_induction_on with
  | _ n ih =>
    intro rest
    unfold varintEncode
    split
    · simp [varintDecode, *]
    · have h1 : ¬ (n % 128 + 128 < 128) := by omega
      have h2 : n / 128 < n := Nat.div_lt_self (by omega) (by omega)
      simp only [List.cons_append, varintDecode, h1, if_false, List.append_eq]
      rw [ih (n / 128) h2]
      simp
      omega

theorem take_len_append (xs ys : List Nat) : (xs ++ ys).take xs.length = xs := by
  induction xs with
  | nil => simp
  | cons a as ihs => simp [ihs]

theorem drop_len_append (xs ys : List Nat) : (xs ++ ys).drop xs.length = ys := by
  induction xs with
  | nil => simp
  | cons a as ihs => simp [ihs]

/-- `read_one` inverts `write_one` whenever the payload fits the cap. -/
theorem read_one_write_one (maxSize : Nat) (payload rest : List Nat)
    (h : payload.length ≤ maxSize) :
    read_one maxSize (write_one payload ++ rest) = .ok (payload, rest) := by
  unfold write_one read_one
  rw [List.append_assoc, varintDecode_varintEncode]
  simp only []
  rw [if_neg (by omega)]
  rw [if_pos (by simp)]
  rw [take_len_append, drop_len_append]

/-- An oversized frame is rejected by `read_one` before its payload is read. -/
theorem read_one_too_large (maxSize : Nat) (payload rest : List Nat)
    (h : payload.length > maxSize) :
    read_one maxSize (write_one payload ++ rest) = .error .tooLarge := by
  unfold write_one read_one
  rw [List.append_assoc, varintDecode_varintEncode]
  simp only []
  rw [if_pos (by omega)]

/-! ## CBOR encoding (serde_cbor)

The message payload structs (`bob::SwapRequest`, `bob::Message0`, ...)
live in the repository's `protocol` module, outside the two source files
embedded here. Modelled from the spec: each payload is an opaque,
self-describing structured binary document, represented below as a CBOR
value. The subset of CBOR used covers unsigned integers, byte strings,
text strings, two-element arrays and one-entry maps — enough to express
serde's externally tagged enum representation (a one-entry map keyed by
the variant name for newtype variants, a bare text string for unit
variants) over arbitrary opaque payload documents. -/

inductive Cbor where
  | uint (n : Nat)
  | bytes (bs : List Nat)
  | text (bs : List Nat)
  | arr2 (a b : Cbor)
  | map1 (k v : Cbor)
deriving DecidableEq

/-- CBOR head: major type (3 high bits) plus canonical minimal-width
argument encoding. -/
def encodeHead (major n : Nat) : List Nat :=
  if n < 24 then [32 * major + n]
  else if n < 256 then [32 * major + 24, n]
  else if n < 65536 then [32 * major + 25, n / 256, n % 256]
  else if n < 4294967296 then
    [32 * major + 26, n / 16777216, n / 65536 % 256, n / 256 % 256, n % 256]
  else
    [32 * major + 27, n / 72057594037927936, n / 281474976710656 % 256,
     n / 1099511627776 % 256, n / 4294967296 % 256, n / 16777216 % 256,
     n / 65536 % 256, n / 256 % 256, n % 256]

/-- CBOR head decoding: returns major type, argument and remaining bytes. -/
def decodeHead : List Nat → Option (Nat × Nat × List Nat)
  | [] => none
  | b :: rest =>
    let major := b / 32
    let ai := b % 32
    if ai < 24 then some (major, ai, rest)
    else if ai = 24 then
      match rest with
      | b1 :: r => some (major, b1, r)
      | [] => none
    else if ai = 25 then
      match rest with
      | b1 :: b2 :: r => some (major, b1 * 256 + b2, r)
      | _ => none
    else if ai = 26 then
      match rest with
      | b1 :: b2 :: b3 :: b4 :: r =>
        some (major, b1 * 16777216 + b2 * 65536 + b3 * 256 + b4, r)
      | _ => none
    else if ai = 27 then
      match rest with
      | b1 :: b2 :: b3 :: b4 :: b5 :: b6 :: b7 :: b8 :: r =>
        some (major, b1 * 72057594037927936 + b2 * 281474976710656 +
          b3 * 1099511627776 + b4 * 4294967296 + b5 * 16777216 +
          b6 * 65536 + b7 * 256 + b8, r)
      | _ => none
    else none

theorem decodeHead_encodeHead (major n : Nat) (rest : List Nat) :
    decodeHead (encodeHead major n ++ rest) = some (major, n, rest) := by
  unfold encodeHead
  split
  · have h1 : (32 * major + n) / 32 = major := by omega
    have h2 : (32 * major + n) % 32 = n := by omega
    simp [decodeHead, h1, h2, *]
  · split
    · have h1 : (32 * major + 24) / 32 = major := by omega
      have h2 : (32 * major + 24) % 32 = 24 := by omega
      simp [decodeHead, h1, h2]
    · split
      · have h1 : (32 * major + 25) / 32 = major := by omega
        have h2 : (32 * major + 25) % 32 = 25 := by omega
        simp [decodeHead, h1, h2]
        omega
      · split
        · have h1 : (32 * major + 26) / 32 = major := by omega
          have h2 : (32 * major + 26) % 32 = 26 := by omega
          simp [decodeHead, h1, h2]
          omega
        · have h1 : (32 * major + 27) / 32 = major := by omega
          have h2 : (32 * major + 27) % 32 = 27 := by omega
          simp [decodeHead, h1, h2]
          omega

/-- CBOR serialization of a value, as `serde_cbor::to_vec` produces it. -/
def encodeCbor : Cbor → List Nat
  | .uint n => encodeHead 0 n
  | .bytes bs => encodeHead 2 bs.length ++ bs
  | .text bs => encodeHead 3 bs.length ++ bs
  | .arr2 a b => encodeHead 4 2 ++ (encodeCbor a ++ encodeCbor b)
  | .map1 k v => encodeHead 5 1 ++ (encodeCbor k ++ encodeCbor v)

/-- Nesting depth of a CBOR value; bounds the fuel a decoder needs. -/
def cborDepth : Cbor → Nat
  | .uint _ => 1
  | .bytes _ => 1
  | .text _ => 1
  | .arr2 a b => max (cborDepth a) (cborDepth b) + 1
  | .map1 k v => max (cborDepth k) (cborDepth v) + 1

/-- CBOR parser, as `serde_cbor::Deserializer::from_slice` reads a single
value: returns the value and the unread remainder. Fuelled recursion; any
fuel at least the nesting depth of the encoded value suffices. -/
def decodeCbor : Nat → List Nat → Option (Cbor × List Nat)
  | 0, _ => none
  | fuel + 1, input =>
    match decodeHead input with
    | none => none
    | some (major, n, rest) =>
      if major = 0 then some (.uint n, rest)
      else if major = 2 then
        if n ≤ rest.length then some (.bytes (rest.take n), rest.drop n) else none
      else if major = 3 then
        if n ≤ rest.length then some (.text (rest.take n), rest.drop n) else none
      else if major = 4 then
        if n = 2 then
          match decodeCbor fuel rest with
          | none => none
          | some (a, r1) =>
            match decodeCbor fuel r1 with
            | none => none
            | some (b, r2) => some (.arr2 a b, r2)
        else none
      else if major = 5 then
        if n = 1 then
          match decodeCbor fuel rest with
          | none => none
          | some (k, r1) =>
            match decodeCbor fuel r1 with
            | none => none
            | some (v, r2) => some (.map1 k v, r2)
        else none
      else none

theorem decodeCbor_encodeCbor (v : Cbor) :
    ∀ fuel rest, cborDepth v ≤ fuel →
      decodeCbor fuel (encodeCbor v ++ rest) = some (v, rest) := by
  induction v with
  | uint n =>
    intro fuel rest hf
    match fuel, hf with
    | f + 1, _ =>
      simp [decodeCbor, encodeCbor, decodeHead_encodeHead]
  | bytes bs =>
    intro fuel rest hf
    match fuel, hf with
    | f + 1, _ =>
      simp only [decodeCbor, encodeCbor, List.append_assoc, decodeHead_encodeHead]
      have hlen : bs.length ≤ (bs ++ rest).length := by simp
      simp [hlen, take_len_append, drop_len_append]
  | text bs =>
    intro fuel rest hf
    match fuel, hf with
    | f + 1, _ =>
      simp only [decodeCbor, encodeCbor, List.append_assoc, decodeHead_encodeHead]
      have hlen : bs.length ≤ (bs ++ rest).length := by simp
      simp [hlen, take_len_append, drop_len_append]
  | arr2 a b iha ihb =>
    intro fuel rest hf
    match fuel, hf with
    | f + 1, hf =>
      have hda : cborDepth a ≤ f := by simp [cborDepth] at hf; omega
      have hdb : cborDepth b ≤ f := by simp [cborDepth] at hf; omega
      simp only [decodeCbor, encodeCbor, List.append_assoc, decodeHead_encodeHead]
      rw [iha f _ hda]
      simp [ihb f _ hdb]
  | map1 k v ihk ihv =>
    intro fuel rest hf
    match fuel, hf with
    | f + 1, hf =>
      have hdk : cborDepth k ≤ f := by simp [cborDepth] at hf; omega
      have hdv : cborDepth v ≤ f := by simp [cborDepth] at hf; omega
      simp only [decodeCbor, encodeCbor, List.append_assoc, decodeHead_encodeHead]
      rw [ihk f _ hdk]
      simp [ihv f _ hdv]

/-- Each level of CBOR structure contributes at least one encoded byte,
so the encoded length is always fuel enough for `decodeCbor`. -/
theorem cborDepth_le_length (v : Cbor) : cborDepth v ≤ (encodeCbor v).length := by
  induction v with
  | uint n =>
    simp only [cborDepth, encodeCbor, encodeHead]
    repeat' split
    all_goals simp
  | bytes bs =>
    have : 1 ≤ (encodeHead 2 bs.length).length := by
      unfold encodeHead; repeat' split
      all_goals simp
    simp only [cborDepth, encodeCbor, List.length_append]
    omega
  | text bs =>
    have : 1 ≤ (encodeHead 3 bs.length).length := by
      unfold encodeHead; repeat' split
      all_goals simp
    simp only [cborDepth, encodeCbor, List.length_append]
    omega
  | arr2 a b iha ihb =>
    have : 1 ≤ (encodeHead 4 2).length := by simp [encodeHead]
    simp only [cborDepth, encodeCbor, List.length_append]
    omega
  | map1 k v ihk ihv =>
    have : 1 ≤ (encodeHead 5 1).length := by simp [encodeHead]
    simp only [cborDepth, encodeCbor, List.length_append]
    omega

/-! ## Message taxonomy (`request_response.rs`) -/

/-- ASCII bytes of a string literal (all names used are ASCII). -/
def strBytes (s : String) : List Nat := s.data.map Char.toNat

/-- Messages Bob sends to Alice (`enum BobToAlice`). The boxed payload
structs live outside the embedded source files; each is modelled as an
opaque CBOR document. -/
inductive BobToAlice where
  | SwapRequest (p : Cbor)
  | Message0 (p : Cbor)
  | Message2 (p : Cbor)
  | Message4 (p : Cbor)
deriving DecidableEq

/-- Messages Alice sends to Bob (`enum AliceToBob`); `Message2` is the
payload-free unit variant. -/
inductive AliceToBob where
  | SwapResponse (p : Cbor)
  | Message1 (p : Cbor)
  | Message3 (p : Cbor)
  | Message2
deriving DecidableEq

/-- One-shot requests (`enum Request`). -/
inductive Request where
  | TransferProof (p : Cbor)
  | EncryptedSignature (p : Cbor)
deriving DecidableEq

/-- Acknowledgement-only responses (`enum Response`). -/
inductive Response where
  | TransferProof
  | EncryptedSignature
deriving DecidableEq

/-- serde's externally tagged representation: newtype variants become a
one-entry map keyed by the variant name, unit variants a bare string. -/
def BobToAlice.toCbor : BobToAlice → Cbor
  | .SwapRequest p => .map1 (.text (strBytes "SwapRequest")) p
  | .Message0 p => .map1 (.text (strBytes "Message0")) p
  | .Message2 p => .map1 (.text (strBytes "Message2")) p
  | .Message4 p => .map1 (.text (strBytes "Message4")) p

def BobToAlice.fromCbor : Cbor → Option BobToAlice
  | .map1 (.text k) p =>
    if k = strBytes "SwapRequest" then some (.SwapRequest p)
    else if k = strBytes "Message0" then some (.Message0 p)
    else if k = strBytes "Message2" then some (.Message2 p)
    else if k = strBytes "Message4" then some (.Message4 p)
    else none
  | _ => none

def AliceToBob.toCbor : AliceToBob → Cbor
  | .SwapResponse p => .map1 (.text (strBytes "SwapResponse")) p
  | .Message1 p => .map1 (.text (strBytes "Message1")) p
  | .Message3 p => .map1 (.text (strBytes "Message3")) p
  | .Message2 => .text (strBytes "Message2")

def AliceToBob.fromCbor : Cbor → Option AliceToBob
  | .map1 (.text k) p =>
    if k = strBytes "SwapResponse" then some (.SwapResponse p)
    else if k = strBytes "Message1" then some (.Message1 p)
    else if k = strBytes "Message3" then some (.Message3 p)
    else none
  | .text k => if k = strBytes "Message2" then some .Message2 else none
  | _ => none

def Request.toCbor : Request → Cbor
  | .TransferProof p => .map1 (.text (strBytes "TransferProof")) p
  | .EncryptedSignature p => .map1 (.text (strBytes "EncryptedSignature")) p

def Request.fromCbor : Cbor → Option Request
  | .map1 (.text k) p =>
    if k = strBytes "TransferProof" then some (.TransferProof p)
    else if k = strBytes "EncryptedSignature" then some (.EncryptedSignature p)
    else none
  | _ => none

def Response.toCbor : Response → Cbor
  | .TransferProof => .text (strBytes "TransferProof")
  | .EncryptedSignature => .text (strBytes "EncryptedSignature")

def Response.fromCbor : Cbor → Option Response
  | .text k =>
    if k = strBytes "TransferProof" then some .TransferProof
    else if k = strBytes "EncryptedSignature" then some .EncryptedSignature
    else none
  | _ => none

theorem BobToAlice.fromCborInvertsToCborB (m : BobToAlice) : BobToAlice.fromCbor m.toCbor = some m := by
  cases m <;> simp only [toCbor, fromCbor] <;>
    (repeat first
      | rw [if_pos rfl]
      | rw [if_neg (by decide)]) <;> simp

theorem AliceToBob.fromCborInvertsToCborA (m : AliceToBob) : AliceToBob.fromCbor m.toCbor = some m := by
  cases m <;> simp only [toCbor, fromCbor] <;>
    (repeat first
      | rw [if_pos rfl]
      | rw [if_neg (by decide)]) <;> simp

theorem Request.fromCborInvertsToCborR (m : Request) : Request.fromCbor m.toCbor = some m := by
  cases m <;> simp only [toCbor, fromCbor] <;>
    (repeat first
      | rw [if_pos rfl]
      | rw [if_neg (by decide)]) <;> simp

theorem Response.fromCborInvertsToCborResp (m : Response) : Response.fromCbor m.toCbor = some m := by
  cases m <;> simp only [toCbor, fromCbor] <;>
    (repeat first
      | rw [if_pos rfl]
      | rw [if_neg (by decide)]) <;> simp

/-! ## Protocol identifiers and codecs -/

/-- The six protocol marker types of `request_response.rs`. -/
inductive ProtocolId where
  | Swap
  | Message0Protocol
  | Message1Protocol
  | Message2Protocol
  | TransferProofProtocol
  | EncryptedSignatureProtocol
deriving DecidableEq, Fintype

/-- `ProtocolName::protocol_name` for each marker type, as byte strings. -/
def protocol_name : ProtocolId → List Nat
  | .Swap => strBytes "/xmr/btc/swap/1.0.0"
  | .Message0Protocol => strBytes "/xmr/btc/message0/1.0.0"
  | .Message1Protocol => strBytes "/xmr/btc/message1/1.0.0"
  | .Message2Protocol => strBytes "/xmr/btc/message2/1.0.0"
  | .TransferProofProtocol => strBytes "/xmr/btc/transfer_proof/1.0.0"
  | .EncryptedSignatureProtocol => strBytes "/xmr/btc/encrypted_signature/1.0.0"

/-- All six protocol identifiers. -/
def allProtocolIds : List ProtocolId :=
  [.Swap, .Message0Protocol, .Message1Protocol, .Message2Protocol,
   .TransferProofProtocol, .EncryptedSignatureProtocol]

/-- I/O error kinds surfaced by the codec implementations: `InvalidData`,
`Other`, or the underlying I/O error passed through unchanged. -/
inductive CodecError where
  | invalidData
  | other
  | ioPass
deriving DecidableEq

/-- Shared read path of both codecs: `upgrade::read_one` with the
`BUF_SIZE` cap (its error mapped by `mapReadErr`), then one CBOR value is
parsed from the received frame (trailing bytes inside the frame are not
rejected, matching `Deserializer::from_slice` + `deserialize`), then the
tagged union is recognised; a serde failure maps to `deErr`. The parser
fuel `message.length + 1` is a modelling artifact and is never the
binding constraint. -/
def readMsg {α : Type} (decodeMsg : Cbor → Option α)
    (mapReadErr : ReadOneErr → CodecError) (deErr : CodecError)
    (input : List Nat) : Except CodecError α :=
  match read_one BUF_SIZE input with
  | .error e => .error (mapReadErr e)
  | .ok (message, _) =>
    match decodeCbor (message.length + 1) message with
    | none => .error deErr
    | some (v, _) =>
      match decodeMsg v with
      | none => .error deErr
      | some msg => .ok msg

/-- `Codec::<P>::read_request`: the protocol argument is received and
ignored, exactly as in the source (`_: &Self::Protocol`). -/
def Codec.read_request (_p : ProtocolId) (input : List Nat) : Except CodecError BobToAlice :=
  readMsg BobToAlice.fromCbor (fun _ => .invalidData) .other input

/-- `Codec::<P>::read_response`. -/
def Codec.read_response (_p : ProtocolId) (input : List Nat) : Except CodecError AliceToBob :=
  readMsg AliceToBob.fromCbor (fun _ => .invalidData) .invalidData input

/-- `Codec::<P>::write_request`: CBOR-serialize, then `write_one`. -/
def Codec.write_request (_p : ProtocolId) (req : BobToAlice) : List Nat :=
  write_one (encodeCbor req.toCbor)

/-- `Codec::<P>::write_response`. -/
def Codec.write_response (_p : ProtocolId) (res : AliceToBob) : List Nat :=
  write_one (encodeCbor res.toCbor)

/-- `OneShotCodec::<P>::read_request`: an I/O error from `read_one` is
passed through, any other `ReadOneError` (e.g. TooLarge) becomes `Other`. -/
def OneShotCodec.read_request (_p : ProtocolId) (input : List Nat) : Except CodecError Request :=
  readMsg Request.fromCbor
    (fun e => match e with | .ioErr => .ioPass | .tooLarge => .other) .other input

/-- `OneShotCodec::<P>::read_response`. -/
def OneShotCodec.read_response (_p : ProtocolId) (input : List Nat) : Except CodecError Response :=
  readMsg Response.fromCbor (fun _ => .invalidData) .invalidData input

/-- `OneShotCodec::<P>::write_request`. -/
def OneShotCodec.write_request (_p : ProtocolId) (req : Request) : List Nat :=
  write_one (encodeCbor req.toCbor)

/-- `OneShotCodec::<P>::write_response`. -/
def OneShotCodec.write_response (_p : ProtocolId) (res : Response) : List Nat :=
  write_one (encodeCbor res.toCbor)

/-- Key lemma: the shared read path inverts `write_one ∘ encodeCbor`
whenever the encoded frame fits the 1 MiB cap and the tagged union
recognises its own serialization. -/
theorem readMsg_write_one {α : Type} (decodeMsg : Cbor → Option α)
    (mapReadErr : ReadOneErr → CodecError) (deErr : CodecError)
    (v : Cbor) (m : α) (hsize : (encodeCbor v).length ≤ BUF_SIZE)
    (hde : decodeMsg v = some m) :
    readMsg decodeMsg mapReadErr deErr (write_one (encodeCbor v)) = .ok m := by
  have hfuel : cborDepth v ≤ (encodeCbor v).length + 1 := by
    have := cborDepth_le_length v
    omega
  have h1 : read_one BUF_SIZE (write_one (encodeCbor v)) = .ok (encodeCbor v, []) := by
    rw [← List.append_nil (write_one (encodeCbor v))]
    exact read_one_write_one BUF_SIZE (encodeCbor v) [] hsize
  have h2 : decodeCbor ((encodeCbor v).length + 1) (encodeCbor v) = some (v, []) := by
    rw [← List.append_nil (encodeCbor v)]
    rw [decodeCbor_encodeCbor v _ [] (by simpa using hfuel)]
  unfold readMsg
  rw [h1]
  simp [h2, hde]

/-- Whether an `Except` result is a success. -/
def isOkE {ε α : Type} : Except ε α → Bool
  | .ok _ => true
  | .error _ => false

/-- C10: the six wire protocol identifier strings are pairwise distinct
fixed ASCII strings, each beginning with the shared prefix "/xmr/btc/"
and ending with the version tag "/1.0.0". -/
theorem protocol_names_distinct :
    allProtocolIds.Pairwise (fun p q => protocol_name p ≠ protocol_name q) ∧
    (∀ p : ProtocolId, (protocol_name p).all (fun b => decide (b < 128)) = true ∧
      (strBytes "/xmr/btc/").isPrefixOf (protocol_name p) = true ∧
      (strBytes "/1.0.0").isSuffixOf (protocol_name p) = true) := by
  constructor
  · decide
  · decide

/-- C2: writing any message of the BobToAlice, AliceToBob, Request or
Response taxonomy with the codec's write operation and reading the frame
back with the matching codec's read operation (same protocol identifier)
yields the original message, provided the encoded frame fits the 1 MiB
cap that `read_one` enforces. -/
theorem codec_roundtrip :
    (∀ (p : ProtocolId) (m : BobToAlice), (encodeCbor m.toCbor).length ≤ BUF_SIZE →
      Codec.read_request p (Codec.write_request p m) = .ok m) ∧
    (∀ (p : ProtocolId) (m : AliceToBob), (encodeCbor m.toCbor).length ≤ BUF_SIZE →
      Codec.read_response p (Codec.write_response p m) = .ok m) ∧
    (∀ (p : ProtocolId) (m : Request), (encodeCbor m.toCbor).length ≤ BUF_SIZE →
      OneShotCodec.read_request p (OneShotCodec.write_request p m) = .ok m) ∧
    (∀ (p : ProtocolId) (m : Response), (encodeCbor m.toCbor).length ≤ BUF_SIZE →
      OneShotCodec.read_response p (OneShotCodec.write_response p m) = .ok m) := by
  refine ⟨fun p m h => ?_, fun p m h => ?_, fun p m h => ?_, fun p m h => ?_⟩
  · exact readMsg_write_one _ _ _ _ _ h (BobToAlice.fromCborInvertsToCborB m)
  · exact readMsg_write_one _ _ _ _ _ h (AliceToBob.fromCborInvertsToCborA m)
  · exact readMsg_write_one _ _ _ _ _ h (Request.fromCborInvertsToCborR m)
  · exact readMsg_write_one _ _ _ _ _ h (Response.fromCborInvertsToCborResp m)

theorem codec_roundtrip_witness :
    ((encodeCbor (BobToAlice.SwapRequest (Cbor.uint 0)).toCbor).length ≤ BUF_SIZE ∧
      Codec.read_request .Swap (Codec.write_request .Swap
        (BobToAlice.SwapRequest (Cbor.uint 0))) = .ok (BobToAlice.SwapRequest (Cbor.uint 0))) ∧
    Codec.read_response .Message1Protocol (Codec.write_response .Message1Protocol
      AliceToBob.Message2) = .ok AliceToBob.Message2 ∧
    OneShotCodec.read_request .TransferProofProtocol (OneShotCodec.write_request
      .TransferProofProtocol (Request.TransferProof (Cbor.uint 7)))
      = .ok (Request.TransferProof (Cbor.uint 7)) ∧
    OneShotCodec.read_response .EncryptedSignatureProtocol (OneShotCodec.write_response
      .EncryptedSignatureProtocol Response.EncryptedSignature)
      = .ok Response.EncryptedSignature :=
  ⟨⟨by decide, codec_roundtrip.1 _ _ (by decide)⟩,
   codec_roundtrip.2.1 _ _ (by decide),
   codec_roundtrip.2.2.1 _ _ (by decide),
   codec_roundtrip.2.2.2 _ _ (by decide)⟩

/-- C8: for every read operation of either codec family, a frame whose
payload length exceeds 1 MiB is rejected with an error; no message value
is produced. -/
theorem oversized_frame_rejected (p : ProtocolId) (payload tail : List Nat)
    (h : payload.length > BUF_SIZE) :
    isOkE (Codec.read_request p (write_one payload ++ tail)) = false ∧
    isOkE (Codec.read_response p (write_one payload ++ tail)) = false ∧
    isOkE (OneShotCodec.read_request p (write_one payload ++ tail)) = false ∧
    isOkE (OneShotCodec.read_response p (write_one payload ++ tail)) = false := by
  have hr : read_one BUF_SIZE (write_one payload ++ tail) = .error .tooLarge :=
    read_one_too_large BUF_SIZE payload tail h
  refine ⟨?_, ?_, ?_, ?_⟩ <;>
    simp [Codec.read_request, Codec.read_response, OneShotCodec.read_request,
      OneShotCodec.read_response, readMsg, hr, isOkE]

theorem oversized_frame_rejected_witness :
    (List.replicate (BUF_SIZE + 1) 0).length > BUF_SIZE ∧
    isOkE (Codec.read_request .Swap
      (write_one (List.replicate (BUF_SIZE + 1) 0) ++ [])) = false ∧
    isOkE (OneShotCodec.read_response .EncryptedSignatureProtocol
      (write_one (List.replicate (BUF_SIZE + 1) 0) ++ [])) = false :=
  have h : (List.replicate (BUF_SIZE + 1) 0).length > BUF_SIZE := by
    rw [List.length_replicate]; omega
  ⟨h, (oversized_frame_rejected .Swap _ [] h).1,
    (oversized_frame_rejected .EncryptedSignatureProtocol _ [] h).2.2.2⟩

/-- C9: for the swap-family codec every read and write operation ignores
the protocol identifier argument — any two protocol identifiers give the
same result on the same input — and consequently every BobToAlice
variant (and every AliceToBob variant) written on one of the channels
decodes successfully on any of them. -/
theorem codec_protocol_independent :
    (∀ (p q : ProtocolId) (input : List Nat),
      Codec.read_request p input = Codec.read_request q input ∧
      Codec.read_response p input = Codec.read_response q input) ∧
    (∀ (p q : ProtocolId) (m : BobToAlice),
      Codec.write_request p m = Codec.write_request q m) ∧
    (∀ (p q : ProtocolId) (m : AliceToBob),
      Codec.write_response p m = Codec.write_response q m) ∧
    (∀ (p q : ProtocolId) (m : BobToAlice), (encodeCbor m.toCbor).length ≤ BUF_SIZE →
      Codec.read_request p (Codec.write_request q m) = .ok m) ∧
    (∀ (p q : ProtocolId) (m : AliceToBob), (encodeCbor m.toCbor).length ≤ BUF_SIZE →
      Codec.read_response p (Codec.write_response q m) = .ok m) := by
  refine ⟨fun p q input => ⟨rfl, rfl⟩, fun p q m => rfl, fun p q m => rfl,
    fun p q m h => ?_, fun p q m h => ?_⟩
  · exact readMsg_write_one _ _ _ _ _ h (BobToAlice.fromCborInvertsToCborB m)
  · exact readMsg_write_one _ _ _ _ _ h (AliceToBob.fromCborInvertsToCborA m)

theorem codec_protocol_independent_witness :
    ((encodeCbor (BobToAlice.Message0 (Cbor.uint 3)).toCbor).length ≤ BUF_SIZE ∧
      Codec.read_request .Message2Protocol (Codec.write_request .Swap
        (BobToAlice.Message0 (Cbor.uint 3))) = .ok (BobToAlice.Message0 (Cbor.uint 3))) ∧
    Codec.read_response .Swap (Codec.write_response .Message1Protocol
      (AliceToBob.Message3 (Cbor.uint 4))) = .ok (AliceToBob.Message3 (Cbor.uint 4)) :=
  ⟨⟨by decide, codec_protocol_independent.2.2.2.1 _ _ _ (by decide)⟩,
   codec_protocol_independent.2.2.2.2 _ _ _ (by decide)⟩

/-! ## Seller discovery event loop (`list_sellers.rs`) -/

/-- Opaque peer identity. -/
abbrev PeerId := Nat

/-- Opaque bid quote (`BidQuote` is storable/copyable and otherwise
opaque to the discovery engine). -/
abbrev BidQuote := Nat

/-- One component of a multiaddress: the peer-identity component
`Protocol::P2p`, or any other transport component. -/
inductive MProtocol where
  | p2p (peer : PeerId)
  | other (tag : Nat)
deriving DecidableEq, BEq

/-- A multiaddress as its list of protocol components. -/
abbrev Multiaddr := List MProtocol

/-- The normalization computed in the Discovered handler:
`address.with(P2p(peer))` unless the address already ends with that
p2p suffix (`Multiaddr::empty().with(p2p_suffix)` is the one-component
suffix `[p2p peer]`). -/
def address_with_p2p (peer : PeerId) (address : Multiaddr) : Multiaddr :=
  if ¬ ([MProtocol.p2p peer].isSuffixOf address) then address ++ [MProtocol.p2p peer]
  else address

/-- `enum QuoteStatus`. -/
inductive QuoteStatus where
  | pending
  | received (quote : BidQuote)
deriving DecidableEq

/-- `enum State`. -/
inductive DState where
  | waitForDiscovery
  | waitForQuoteCompletion
deriving DecidableEq

/-- `struct Seller`. -/
structure Seller where
  peer_id : PeerId
  multiaddr : Multiaddr
  quote : BidQuote
deriving DecidableEq

/-- Association-list lookup, modelling `HashMap::get`. -/
def lookupA {V : Type} : List (PeerId × V) → PeerId → Option V
  | [], _ => none
  | (k, v) :: rest, k' => if k' = k then some v else lookupA rest k'

/-- Key removal, modelling `HashMap::remove`. -/
def removeA {V : Type} : List (PeerId × V) → PeerId → List (PeerId × V)
  | [], _ => []
  | (k, v) :: rest, k' => if k' = k then removeA rest k' else (k, v) :: removeA rest k'

/-- Insertion, modelling `HashMap::insert` (the previous binding, if
any, is what `insert` returns in Rust; callers read it via `lookupA`
before inserting). -/
def insertA {V : Type} (m : List (PeerId × V)) (k : PeerId) (v : V) : List (PeerId × V) :=
  (k, v) :: removeA m k

/-- The `EventLoop` state: rendezvous configuration, the two peer-keyed
maps and the phase, plus the addresses registered with the quote
behaviour (`quote.add_address`) and the quote requests issued
(`quote.send_request`), recorded so their effects can be stated. -/
structure LoopState where
  rendezvous_peer_id : PeerId
  rendezvous_addr : Multiaddr
  asb_address : List (PeerId × Multiaddr)
  asb_quote_status : List (PeerId × QuoteStatus)
  phase : DState
  quote_addresses : List (PeerId × Multiaddr)
  quote_requests : List PeerId
deriving DecidableEq

/-- `EventLoop::new`: both maps empty, phase `WaitForDiscovery`. -/
def initialState (rendezvous_peer_id : PeerId) (rendezvous_addr : Multiaddr) : LoopState :=
  { rendezvous_peer_id := rendezvous_peer_id
    rendezvous_addr := rendezvous_addr
    asb_address := []
    asb_quote_status := []
    phase := .waitForDiscovery
    quote_addresses := []
    quote_requests := [] }

/-- The events the loop's `tokio::select!` can deliver, restricted to the
arms the source matches on; every other swarm event is `otherEvent`. -/
inductive Event where
  | connectionEstablished (peer : PeerId) (remoteAddr : Multiaddr)
  | unreachableAddr (peer : PeerId) (address : Multiaddr)
  | discovered (registrations : List (PeerId × List Multiaddr))
  | quoteResponse (peer : PeerId) (response : BidQuote)
  | outboundFailure (peer : PeerId)
  | inboundFailure (peer : PeerId)
  | otherEvent
deriving DecidableEq

/-- Result of one event-handling arm: continue with a new state, or the
early `return Vec::new()` of the rendezvous-unreachable arm. -/
inductive HandleResult where
  | continue_ (s : LoopState)
  | abortEmpty
deriving DecidableEq

/-- Inner loop of the Discovered arm: for each address of a registration
record, the suffixed address is computed (and, as in the source, left
unused), `Pending` is inserted for the peer, and the raw address is
registered with the quote behaviour. -/
def handleAddress (peer : PeerId) (s : LoopState) (address : Multiaddr) : LoopState :=
  let _address_with_p2p := address_with_p2p peer address
  { s with
    asb_quote_status := insertA s.asb_quote_status peer .pending
    quote_addresses := s.quote_addresses ++ [(peer, address)] }

/-- One registration record of the Discovered arm: all its addresses are
processed, then one quote request is issued to the peer. -/
def handleRegistration (s : LoopState) (reg : PeerId × List Multiaddr) : LoopState :=
  let s1 := reg.2.foldl (handleAddress reg.1) s
  { s1 with quote_requests := s1.quote_requests ++ [reg.1] }

/-- `EventLoop::run`, event-handling part of one iteration. -/
def handleEvent (s : LoopState) : Event → HandleResult
  | .connectionEstablished peer remoteAddr =>
    if peer = s.rendezvous_peer_id then
      .continue_ s
    else
      .continue_ { s with asb_address := insertA s.asb_address peer remoteAddr }
  | .unreachableAddr peer address =>
    if address = s.rendezvous_addr then
      .abortEmpty
    else
      .continue_ { s with asb_quote_status := removeA s.asb_quote_status peer }
  | .discovered registrations =>
    .continue_ (registrations.foldl handleRegistration { s with phase := .waitForQuoteCompletion })
  | .quoteResponse peer response =>
    let previous := lookupA s.asb_quote_status peer
    let inserted := insertA s.asb_quote_status peer (.received response)
    if previous.isSome then
      .continue_ { s with asb_quote_status := inserted }
    else
      .continue_ { s with asb_quote_status := removeA inserted peer }
  | .outboundFailure peer =>
    if peer = s.rendezvous_peer_id then
      .continue_ s
    else
      .continue_ { s with asb_quote_status := removeA s.asb_quote_status peer }
  | .inboundFailure peer =>
    if peer = s.rendezvous_peer_id then
      .continue_ s
    else
      .continue_ { s with asb_quote_status := removeA s.asb_quote_status peer }
  | .otherEvent => .continue_ s

/-- Outcome of the per-entry fold of the termination check. -/
inductive CollectResult where
  | stillPending
  | panic
  | ok (sellers : List Seller)
deriving DecidableEq

/-- The `all_quotes_fetched` computation: lazily map each quote-status
entry to a `Seller` (an entry still `Pending` short-circuits with
`StillPending`; a `Received` entry whose peer has no address entry hits
the `expect`, i.e. panics). -/
def collectSellers (addrs : List (PeerId × Multiaddr)) :
    List (PeerId × QuoteStatus) → CollectResult
  | [] => .ok []
  | (_, .pending) :: _ => .stillPending
  | (p, .received q) :: rest =>
    match lookupA addrs p with
    | none => .panic
    | some a =>
      match collectSellers addrs rest with
      | .ok sellers => .ok ({ peer_id := p, multiaddr := a, quote := q } :: sellers)
      | r => r

/-- Outcome of one full loop iteration. -/
inductive StepResult where
  | next (s : LoopState)
  | done (sellers : List Seller)
  | panicked
deriving DecidableEq

/-- The termination check run after every processed event. -/
def terminationCheck (s : LoopState) : StepResult :=
  match s.phase with
  | .waitForDiscovery => .next s
  | .waitForQuoteCompletion =>
    match collectSellers s.asb_address s.asb_quote_status with
    | .stillPending => .next s
    | .panic => .panicked
    | .ok sellers => .done sellers

/-- One full iteration: handle the event, then run the termination check. -/
def step (s : LoopState) (e : Event) : StepResult :=
  match handleEvent s e with
  | .abortEmpty => .done []
  | .continue_ s' => terminationCheck s'

/-- Result of driving `EventLoop::run` over a finite event sequence. -/
inductive RunResult where
  | finished (sellers : List Seller)
  | panicked
  | pending (s : LoopState)
deriving DecidableEq

/-- Drive the loop over an event sequence. -/
def run (s : LoopState) : List Event → RunResult
  | [] => .pending s
  | e :: rest =>
    match step s e with
    | .next s' => run s' rest
    | .done sellers => .finished sellers
    | .panicked => .panicked

/-! ## Map lemmas -/

theorem lookupA_removeA_self {V : Type} (m : List (PeerId × V)) (k : PeerId) :
    lookupA (removeA m k) k = none := by
  induction m with
  | nil => rfl
  | cons e rest ih =>
    obtain ⟨k0, v0⟩ := e
    by_cases h : k = k0
    · subst h
      simp [removeA, ih]
    · simp [removeA, lookupA, h, ih]

theorem lookupA_removeA_ne {V : Type} (m : List (PeerId × V)) (k r : PeerId) (h : r ≠ k) :
    lookupA (removeA m k) r = lookupA m r := by
  induction m with
  | nil => rfl
  | cons e rest ih =>
    obtain ⟨k0, v0⟩ := e
    by_cases h0 : k = k0
    · subst h0
      simp [removeA, lookupA, h, ih]
    · by_cases h1 : r = k0 <;> simp [removeA, lookupA, h0, h1, ih]

theorem lookupA_insertA_self {V : Type} (m : List (PeerId × V)) (k : PeerId) (v : V) :
    lookupA (insertA m k v) k = some v := by
  simp [insertA, lookupA]

theorem lookupA_insertA_ne {V : Type} (m : List (PeerId × V)) (k r : PeerId) (v : V)
    (h : r ≠ k) : lookupA (insertA m k v) r = lookupA m r := by
  simp [insertA, lookupA, h, lookupA_removeA_ne m k r h]

theorem mem_removeA {V : Type} (m : List (PeerId × V)) (k : PeerId) (e : PeerId × V)
    (h : e ∈ removeA m k) : e ∈ m ∧ e.1 ≠ k := by
  induction m with
  | nil => simp [removeA] at h
  | cons e0 rest ih =>
    obtain ⟨k0, v0⟩ := e0
    by_cases h0 : k = k0
    · simp only [removeA, if_pos h0] at h
      have := ih h
      exact ⟨List.mem_cons_of_mem _ this.1, this.2⟩
    · simp only [removeA, if_neg h0, List.mem_cons] at h
      rcases h with h | h
      · subst h
        exact ⟨List.mem_cons_self _ _, by simpa using fun he => h0 he.symm⟩
      · have := ih h
        exact ⟨List.mem_cons_of_mem _ this.1, this.2⟩

theorem lookupA_some_mem {V : Type} (m : List (PeerId × V)) (k : PeerId) (v : V)
    (h : lookupA m k = some v) : (k, v) ∈ m := by
  induction m with
  | nil => simp [lookupA] at h
  | cons e0 rest ih =>
    obtain ⟨k0, v0⟩ := e0
    by_cases h0 : k = k0
    · subst h0
      simp only [lookupA, if_pos] at h
      simp only [eq_self_iff_true, if_true, Option.some.injEq] at h
      subst h
      exact List.mem_cons_self _ _
    · simp only [lookupA, if_neg h0] at h
      exact List.mem_cons_of_mem _ (ih h)

theorem lookupA_none_of_noEntry {V : Type} (m : List (PeerId × V)) (k : PeerId)
    (h : ∀ v : V, (k, v) ∉ m) : lookupA m k = none := by
  cases hl : lookupA m k with
  | none => rfl
  | some v => exact absurd (lookupA_some_mem m k v hl) (h v)

theorem isSome_lookupA_insertA {V : Type} (m : List (PeerId × V)) (k r : PeerId) (v : V)
    (h : (lookupA m r).isSome = true) : (lookupA (insertA m k v) r).isSome = true := by
  by_cases hr : r = k
  · subst hr
    simp [lookupA_insertA_self]
  · rwa [lookupA_insertA_ne m k r v hr]

/-! ## Structure of the Discovered handler's fold -/

theorem foldl_handleAddress_spec (peer : PeerId) (addresses : List Multiaddr) :
    ∀ s : LoopState,
      (addresses.foldl (handleAddress peer) s).rendezvous_peer_id = s.rendezvous_peer_id ∧
      (addresses.foldl (handleAddress peer) s).rendezvous_addr = s.rendezvous_addr ∧
      (addresses.foldl (handleAddress peer) s).asb_address = s.asb_address ∧
      (addresses.foldl (handleAddress peer) s).phase = s.phase ∧
      ∀ e ∈ (addresses.foldl (handleAddress peer) s).asb_quote_status,
        e = (peer, QuoteStatus.pending) ∨ e ∈ s.asb_quote_status := by
  induction addresses with
  | nil => intro s; exact ⟨rfl, rfl, rfl, rfl, fun e he => Or.inr he⟩
  | cons a rest ih =>
    intro s
    obtain ⟨h1, h2, h3, h4, h5⟩ := ih (handleAddress peer s a)
    simp only [List.foldl_cons]
    refine ⟨h1, h2, h3, h4, fun e he => ?_⟩
    rcases h5 e he with h | h
    · exact Or.inl h
    · simp only [handleAddress, insertA, List.mem_cons] at h
      rcases h with h | h
      · exact Or.inl h
      · exact Or.inr (mem_removeA _ _ _ h).1

theorem foldl_handleRegistration_spec (regs : List (PeerId × List Multiaddr)) :
    ∀ s : LoopState,
      (regs.foldl handleRegistration s).rendezvous_peer_id = s.rendezvous_peer_id ∧
      (regs.foldl handleRegistration s).rendezvous_addr = s.rendezvous_addr ∧
      (regs.foldl handleRegistration s).asb_address = s.asb_address ∧
      (regs.foldl handleRegistration s).phase = s.phase ∧
      ∀ e ∈ (regs.foldl handleRegistration s).asb_quote_status,
        (∃ reg ∈ regs, e = (reg.1, QuoteStatus.pending)) ∨ e ∈ s.asb_quote_status := by
  induction regs with
  | nil => intro s; exact ⟨rfl, rfl, rfl, rfl, fun e he => Or.inr he⟩
  | cons reg rest ih =>
    intro s
    obtain ⟨h1, h2, h3, h4, h5⟩ := ih (handleRegistration s reg)
    obtain ⟨g1, g2, g3, g4, g5⟩ := foldl_handleAddress_spec reg.1 reg.2 s
    simp only [List.foldl_cons]
    refine ⟨by rw [h1]; exact g1, by rw [h2]; exact g2, by rw [h3]; exact g3,
      by rw [h4]; exact g4, fun e he => ?_⟩
    rcases h5 e he with h | h
    · obtain ⟨r, hr, he'⟩ := h
      exact Or.inl ⟨r, List.mem_cons_of_mem _ hr, he'⟩
    · rcases g5 e h with h' | h'
      · exact Or.inl ⟨reg, List.mem_cons_self _ _, h'⟩
      · exact Or.inr h'

/-! ## Shape lemmas for steps and runs -/

theorem handleEvent_config (s : LoopState) (e : Event) (s' : LoopState)
    (h : handleEvent s e = .continue_ s') :
    s'.rendezvous_peer_id = s.rendezvous_peer_id ∧
    s'.rendezvous_addr = s.rendezvous_addr := by
  cases e with
  | connectionEstablished peer remoteAddr =>
    simp only [handleEvent] at h
    split at h <;> (injection h with h; subst h; exact ⟨rfl, rfl⟩)
  | unreachableAddr peer address =>
    simp only [handleEvent] at h
    split at h
    · exact HandleResult.noConfusion h
    · injection h with h
      subst h
      exact ⟨rfl, rfl⟩
  | discovered registrations =>
    simp only [handleEvent] at h
    injection h with h
    subst h
    obtain ⟨h1, h2, -⟩ := foldl_handleRegistration_spec registrations
      { s with phase := .waitForQuoteCompletion }
    exact ⟨h1, h2⟩
  | quoteResponse peer response =>
    simp only [handleEvent] at h
    split at h <;> (injection h with h; subst h; exact ⟨rfl, rfl⟩)
  | outboundFailure peer =>
    simp only [handleEvent] at h
    split at h <;> (injection h with h; subst h; exact ⟨rfl, rfl⟩)
  | inboundFailure peer =>
    simp only [handleEvent] at h
    split at h <;> (injection h with h; subst h; exact ⟨rfl, rfl⟩)
  | otherEvent =>
    injection h with h
    subst h
    exact ⟨rfl, rfl⟩

theorem terminationCheck_next (s s' : LoopState) (h : terminationCheck s = .next s') :
    s' = s := by
  unfold terminationCheck at h
  cases hph : s.phase with
  | waitForDiscovery =>
    rw [hph] at h
    injection h with h
    exact h.symm
  | waitForQuoteCompletion =>
    rw [hph] at h
    cases hc : collectSellers s.asb_address s.asb_quote_status <;> rw [hc] at h
    · injection h with h
      exact h.symm
    · exact StepResult.noConfusion h
    · exact StepResult.noConfusion h

theorem step_next_config (s : LoopState) (e : Event) (s' : LoopState)
    (h : step s e = .next s') :
    s'.rendezvous_peer_id = s.rendezvous_peer_id ∧
    s'.rendezvous_addr = s.rendezvous_addr := by
  unfold step at h
  cases he : handleEvent s e with
  | abortEmpty =>
    rw [he] at h
    exact StepResult.noConfusion h
  | continue_ s1 =>
    rw [he] at h
    have hs1 := terminationCheck_next s1 s' h
    subst hs1
    exact handleEvent_config s e s' he

theorem run_append (xs : List Event) :
    ∀ (s : LoopState) (ys : List Event),
      run s (xs ++ ys) =
        match run s xs with
        | .pending s' => run s' ys
        | .finished sellers => .finished sellers
        | .panicked => .panicked := by
  induction xs with
  | nil => intro s ys; rfl
  | cons e rest ih =>
    intro s ys
    simp only [List.cons_append, run]
    cases step s e with
    | next s1 => exact ih s1 ys
    | done sellers => rfl
    | panicked => rfl

theorem run_pending_config (xs : List Event) :
    ∀ (s s' : LoopState), run s xs = .pending s' →
      s'.rendezvous_peer_id = s.rendezvous_peer_id ∧
      s'.rendezvous_addr = s.rendezvous_addr := by
  induction xs with
  | nil =>
    intro s s' h
    simp only [run, RunResult.pending.injEq] at h
    subst h
    exact ⟨rfl, rfl⟩
  | cons e rest ih =>
    intro s s' h
    simp only [run] at h
    cases hs : step s e with
    | next s1 =>
      rw [hs] at h
      obtain ⟨a1, a2⟩ := ih s1 s' h
      obtain ⟨b1, b2⟩ := step_next_config s e s1 hs
      exact ⟨a1.trans b1, a2.trans b2⟩
    | done sellers => rw [hs] at h; simp at h
    | panicked => rw [hs] at h; simp at h

/-- C3: however many events were already processed (and whatever quotes
were already received), an address-unreachable event carrying the
rendezvous node's address makes the run return the empty seller list
immediately, ignoring all later events. -/
theorem rendezvous_unreachable_aborts (s : LoopState) (pre post : List Event)
    (p : PeerId) (s' : LoopState) (h : run s pre = .pending s') :
    run s (pre ++ Event.unreachableAddr p s.rendezvous_addr :: post) = .finished [] := by
  rw [run_append, h]
  obtain ⟨-, haddr⟩ := run_pending_config pre s s' h
  simp only [run, step]
  rw [show handleEvent s' (Event.unreachableAddr p s.rendezvous_addr) = .abortEmpty from by
    simp only [handleEvent]
    rw [if_pos haddr.symm]]

theorem rendezvous_unreachable_aborts_witness :
    run (initialState 0 [MProtocol.other 9]) []
      = .pending (initialState 0 [MProtocol.other 9]) ∧
    run (initialState 0 [MProtocol.other 9])
        ([] ++ Event.unreachableAddr 7
          (initialState 0 [MProtocol.other 9]).rendezvous_addr :: [Event.quoteResponse 1 4])
      = .finished [] :=
  ⟨rfl, rendezvous_unreachable_aborts _ _ _ 7 _ rfl⟩

/-! ## The termination check -/

/-- Every quote-status entry is `Received`. -/
def allReceived : List (PeerId × QuoteStatus) → Bool
  | [] => true
  | (_, .pending) :: _ => false
  | (_, .received _) :: rest => allReceived rest

theorem collectSellers_ok_spec (addrs : List (PeerId × Multiaddr)) :
    ∀ (status : List (PeerId × QuoteStatus)) (sellers : List Seller),
      collectSellers addrs status = .ok sellers →
      sellers.length = status.length ∧
      ∀ sel ∈ sellers, (sel.peer_id, QuoteStatus.received sel.quote) ∈ status ∧
        lookupA addrs sel.peer_id = some sel.multiaddr := by
  intro status
  induction status with
  | nil =>
    intro sellers h
    simp only [collectSellers, CollectResult.ok.injEq] at h
    subst h
    simp
  | cons e rest ih =>
    intro sellers h
    obtain ⟨p, st⟩ := e
    cases st with
    | pending => exact CollectResult.noConfusion h
    | received q =>
      simp only [collectSellers] at h
      cases ha : lookupA addrs p with
      | none => rw [ha] at h; exact CollectResult.noConfusion h
      | some a =>
        rw [ha] at h
        cases hc : collectSellers addrs rest with
        | stillPending => rw [hc] at h; exact CollectResult.noConfusion h
        | panic => rw [hc] at h; exact CollectResult.noConfusion h
        | ok sellers0 =>
          rw [hc] at h
          injection h with h
          subst h
          obtain ⟨hlen, hmem⟩ := ih sellers0 hc
          refine ⟨by simp [hlen], fun sel hsel => ?_⟩
          rcases List.mem_cons.mp hsel with hsel | hsel
          · subst hsel
            exact ⟨List.mem_cons_self _ _, ha⟩
          · obtain ⟨h1, h2⟩ := hmem sel hsel
            exact ⟨List.mem_cons_of_mem _ h1, h2⟩

theorem collectSellers_of_allReceived (addrs : List (PeerId × Multiaddr)) :
    ∀ status : List (PeerId × QuoteStatus),
      (∀ p q, (p, QuoteStatus.received q) ∈ status → (lookupA addrs p).isSome = true) →
      allReceived status = true →
      ∃ sellers, collectSellers addrs status = .ok sellers := by
  intro status
  induction status with
  | nil => exact fun _ _ => ⟨[], rfl⟩
  | cons e rest ih =>
    intro haddr hall
    obtain ⟨p, st⟩ := e
    cases st with
    | pending => exact Bool.noConfusion hall
    | received q =>
      have hp : (lookupA addrs p).isSome = true :=
        haddr p q (List.mem_cons_self _ _)
      obtain ⟨a, ha⟩ := Option.isSome_iff_exists.mp hp
      obtain ⟨sellers0, hc⟩ := ih
        (fun p' q' hm => haddr p' q' (List.mem_cons_of_mem _ hm))
        (by simpa [allReceived] using hall)
      refine ⟨{ peer_id := p, multiaddr := a, quote := q } :: sellers0, ?_⟩
      simp only [collectSellers, ha, hc]

theorem collectSellers_of_notAllReceived (addrs : List (PeerId × Multiaddr)) :
    ∀ status : List (PeerId × QuoteStatus),
      (∀ p q, (p, QuoteStatus.received q) ∈ status → (lookupA addrs p).isSome = true) →
      allReceived status = false →
      collectSellers addrs status = .stillPending := by
  intro status
  induction status with
  | nil => exact fun _ h => Bool.noConfusion h
  | cons e rest ih =>
    intro haddr hall
    obtain ⟨p, st⟩ := e
    cases st with
    | pending => rfl
    | received q =>
      have hp : (lookupA addrs p).isSome = true :=
        haddr p q (List.mem_cons_self _ _)
      obtain ⟨a, ha⟩ := Option.isSome_iff_exists.mp hp
      have hc := ih (fun p' q' hm => haddr p' q' (List.mem_cons_of_mem _ hm))
        (by simpa [allReceived] using hall)
      simp only [collectSellers, ha, hc]

theorem allReceived_of_collectSellers_ok (addrs : List (PeerId × Multiaddr)) :
    ∀ (status : List (PeerId × QuoteStatus)) (sellers : List Seller),
      collectSellers addrs status = .ok sellers → allReceived status = true := by
  intro status
  induction status with
  | nil => exact fun _ _ => rfl
  | cons e rest ih =>
    intro sellers h
    obtain ⟨p, st⟩ := e
    cases st with
    | pending => exact CollectResult.noConfusion h
    | received q =>
      simp only [collectSellers] at h
      cases ha : lookupA addrs p with
      | none => rw [ha] at h; exact CollectResult.noConfusion h
      | some a =>
        rw [ha] at h
        cases hc : collectSellers addrs rest with
        | stillPending => rw [hc] at h; exact CollectResult.noConfusion h
        | panic => rw [hc] at h; exact CollectResult.noConfusion h
        | ok sellers0 => simpa [allReceived] using ih sellers0 hc

/-- C7: the termination check run after each processed event: in the
`WaitForDiscovery` phase the loop always continues; in the
`WaitForQuoteCompletion` phase — assuming the structural invariant that
every `Received` entry has an address entry, which the spec asserts —
the loop terminates successfully exactly when every quote-status entry
is `Received`, returning one `Seller` per entry pairing the peer's quote
with its address; it continues while any entry is `Pending`; an empty
quote-status map yields immediate successful termination with the empty
result. -/
theorem termination_check_spec (s : LoopState)
    (haddr : ∀ p q, (p, QuoteStatus.received q) ∈ s.asb_quote_status →
      (lookupA s.asb_address p).isSome = true) :
    (s.phase = .waitForDiscovery → terminationCheck s = .next s) ∧
    (s.phase = .waitForQuoteCompletion →
      ((∃ sellers, terminationCheck s = .done sellers) ↔
        allReceived s.asb_quote_status = true) ∧
      (allReceived s.asb_quote_status = false → terminationCheck s = .next s) ∧
      (∀ sellers, terminationCheck s = .done sellers →
        sellers.length = s.asb_quote_status.length ∧
        ∀ sel ∈ sellers, (sel.peer_id, QuoteStatus.received sel.quote) ∈ s.asb_quote_status ∧
          lookupA s.asb_address sel.peer_id = some sel.multiaddr) ∧
      (s.asb_quote_status = [] → terminationCheck s = .done [])) := by
  constructor
  · intro hph
    unfold terminationCheck
    rw [hph]
  · intro hph
    refine ⟨⟨?_, ?_⟩, ?_, ?_, ?_⟩
    · rintro ⟨sellers, hdone⟩
      unfold terminationCheck at hdone
      rw [hph] at hdone
      cases hc : collectSellers s.asb_address s.asb_quote_status <;> rw [hc] at hdone
      · exact StepResult.noConfusion hdone
      · exact StepResult.noConfusion hdone
      · exact allReceived_of_collectSellers_ok _ _ _ hc
    · intro hall
      obtain ⟨sellers, hc⟩ :=
        collectSellers_of_allReceived s.asb_address s.asb_quote_status haddr hall
      refine ⟨sellers, ?_⟩
      unfold terminationCheck
      rw [hph, hc]
    · intro hall
      have hc := collectSellers_of_notAllReceived s.asb_address s.asb_quote_status haddr hall
      unfold terminationCheck
      rw [hph, hc]
    · intro sellers hdone
      unfold terminationCheck at hdone
      rw [hph] at hdone
      cases hc : collectSellers s.asb_address s.asb_quote_status <;> rw [hc] at hdone
      · exact StepResult.noConfusion hdone
      · exact StepResult.noConfusion hdone
      · injection hdone with hdone
        subst hdone
        exact collectSellers_ok_spec s.asb_address s.asb_quote_status _ hc
    · intro hempty
      unfold terminationCheck
      rw [hph, hempty]
      rfl

/-- A concrete post-discovery state: one received quote with its address. -/
def sampleQC : LoopState :=
  { rendezvous_peer_id := 0
    rendezvous_addr := [MProtocol.other 9]
    asb_address := [(1, [MProtocol.other 3])]
    asb_quote_status := [(1, QuoteStatus.received 5)]
    phase := .waitForQuoteCompletion
    quote_addresses := []
    quote_requests := [] }

theorem termination_check_spec_witness :
    (∀ p q, (p, QuoteStatus.received q) ∈ sampleQC.asb_quote_status →
      (lookupA sampleQC.asb_address p).isSome = true) ∧
    (sampleQC.phase = .waitForQuoteCompletion →
      ((∃ sellers, terminationCheck sampleQC = .done sellers) ↔
        allReceived sampleQC.asb_quote_status = true) ∧
      (allReceived sampleQC.asb_quote_status = false → terminationCheck sampleQC = .next sampleQC) ∧
      (∀ sellers, terminationCheck sampleQC = .done sellers →
        sellers.length = sampleQC.asb_quote_status.length ∧
        ∀ sel ∈ sellers,
          (sel.peer_id, QuoteStatus.received sel.quote) ∈ sampleQC.asb_quote_status ∧
          lookupA sampleQC.asb_address sel.peer_id = some sel.multiaddr) ∧
      (sampleQC.asb_quote_status = [] → terminationCheck sampleQC = .done [])) :=
  have haddr : ∀ p q, (p, QuoteStatus.received q) ∈ sampleQC.asb_quote_status →
      (lookupA sampleQC.asb_address p).isSome = true := by
    intro p q h
    simp only [sampleQC] at h
    rw [List.mem_singleton] at h
    have hp : p = 1 := congrArg Prod.fst h
    subst hp
    decide
  ⟨haddr, (termination_check_spec sampleQC haddr).2⟩

/-- C6: a quote response for peer P never aborts the run: the handler
always continues, leaves the address map, the phase and the rendezvous
configuration untouched, changes no quote-status entry of any other
peer, and leaves P's entry `Received(quote)` when P had an entry and
absent when it had none (the response is dropped). -/
theorem quote_response_update (s : LoopState) (p : PeerId) (q : BidQuote) :
    ∃ s', handleEvent s (.quoteResponse p q) = .continue_ s' ∧
      s'.asb_address = s.asb_address ∧
      s'.phase = s.phase ∧
      s'.rendezvous_peer_id = s.rendezvous_peer_id ∧
      s'.rendezvous_addr = s.rendezvous_addr ∧
      (∀ r, r ≠ p → lookupA s'.asb_quote_status r = lookupA s.asb_quote_status r) ∧
      lookupA s'.asb_quote_status p =
        (if (lookupA s.asb_quote_status p).isSome then some (.received q) else none) := by
  by_cases hp : (lookupA s.asb_quote_status p).isSome = true
  · refine ⟨{ s with asb_quote_status := insertA s.asb_quote_status p (.received q) },
      ?_, rfl, rfl, rfl, rfl, ?_, ?_⟩
    · simp only [handleEvent]
      rw [if_pos hp]
    · intro r hr
      exact lookupA_insertA_ne _ _ _ _ hr
    · rw [if_pos hp]
      exact lookupA_insertA_self _ _ _
  · refine ⟨{ s with
        asb_quote_status := removeA (insertA s.asb_quote_status p (.received q)) p },
      ?_, rfl, rfl, rfl, rfl, ?_, ?_⟩
    · simp only [handleEvent]
      rw [if_neg hp]
    · intro r hr
      rw [lookupA_removeA_ne _ _ _ hr, lookupA_insertA_ne _ _ _ _ hr]
    · rw [if_neg hp]
      exact lookupA_removeA_self _ _

/-- Whether an event is a discovery batch containing peer `p`. -/
def discoversPeer (p : PeerId) : Event → Bool
  | .discovered regs => regs.any (fun reg => reg.1 == p)
  | _ => false

theorem step_cases (s : LoopState) (e : Event) :
    (step s e = .done [] ∧ handleEvent s e = .abortEmpty) ∨
    (∃ s', handleEvent s e = .continue_ s' ∧ step s e = terminationCheck s') := by
  unfold step
  cases h : handleEvent s e
  · exact Or.inr ⟨_, rfl, rfl⟩
  · exact Or.inl ⟨rfl, rfl⟩

theorem terminationCheck_done (s : LoopState) (sellers : List Seller)
    (h : terminationCheck s = .done sellers) :
    collectSellers s.asb_address s.asb_quote_status = .ok sellers := by
  unfold terminationCheck at h
  cases hph : s.phase <;> rw [hph] at h
  · exact StepResult.noConfusion h
  · cases hc : collectSellers s.asb_address s.asb_quote_status <;> rw [hc] at h
    · exact StepResult.noConfusion h
    · exact StepResult.noConfusion h
    · injection h with h
      rw [h]

/-- Once peer `p` has no quote-status entry, only a discovery batch that
contains `p` can create one. -/
theorem handleEvent_noEntry (p : PeerId) (s : LoopState) (e : Event) (s' : LoopState)
    (hne : ∀ st, (p, st) ∉ s.asb_quote_status)
    (h : handleEvent s e = .continue_ s')
    (hnd : discoversPeer p e = false) :
    ∀ st, (p, st) ∉ s'.asb_quote_status := by
  cases e with
  | connectionEstablished peer a =>
    simp only [handleEvent] at h
    split at h <;> (injection h with h; subst h; exact hne)
  | unreachableAddr peer a =>
    simp only [handleEvent] at h
    split at h
    · exact HandleResult.noConfusion h
    · injection h with h
      subst h
      intro st hmem
      exact hne st (mem_removeA _ _ _ hmem).1
  | discovered regs =>
    simp only [handleEvent] at h
    injection h with h
    subst h
    obtain ⟨-, -, -, -, h5⟩ := foldl_handleRegistration_spec regs
      { s with phase := .waitForQuoteCompletion }
    intro st hmem
    rcases h5 (p, st) hmem with ⟨reg, hreg, he⟩ | hmem'
    · have hp1 : reg.1 = p := (congrArg Prod.fst he).symm
      have : (fun r => r.1 == p) reg = true := by simp [hp1]
      simp only [discoversPeer, List.any_eq_false] at hnd
      exact absurd this (by simpa using hnd reg hreg)
    · exact hne st hmem'
  | quoteResponse peer q =>
    simp only [handleEvent] at h
    intro st hmem
    by_cases hpeq : peer = p
    · subst hpeq
      have hlp : lookupA s.asb_quote_status peer = none :=
        lookupA_none_of_noEntry _ _ hne
      rw [hlp] at h
      rw [if_neg (by simp)] at h
      injection h with h
      subst h
      exact absurd rfl (mem_removeA _ _ _ hmem).2
    · split at h <;> (injection h with h; subst h)
      · simp only [insertA, List.mem_cons] at hmem
        rcases hmem with hmem | hmem
        · exact hpeq ((congrArg Prod.fst hmem).symm)
        · exact hne st (mem_removeA _ _ _ hmem).1
      · have hmem' := (mem_removeA _ _ _ hmem).1
        simp only [insertA, List.mem_cons] at hmem'
        rcases hmem' with hmem' | hmem'
        · exact hpeq ((congrArg Prod.fst hmem').symm)
        · exact hne st (mem_removeA _ _ _ hmem').1
  | outboundFailure peer =>
    simp only [handleEvent] at h
    split at h <;> (injection h with h; subst h)
    · exact hne
    · intro st hmem
      exact hne st (mem_removeA _ _ _ hmem).1
  | inboundFailure peer =>
    simp only [handleEvent] at h
    split at h <;> (injection h with h; subst h)
    · exact hne
    · intro st hmem
      exact hne st (mem_removeA _ _ _ hmem).1
  | otherEvent =>
    injection h with h
    subst h
    exact hne

/-- Once peer `p` has no quote-status entry and is never re-discovered,
it cannot appear in a successful result. -/
theorem run_noEntry (p : PeerId) :
    ∀ (events : List Event) (s : LoopState) (sellers : List Seller),
      (∀ st, (p, st) ∉ s.asb_quote_status) →
      (∀ e ∈ events, discoversPeer p e = false) →
      run s events = .finished sellers →
      ∀ sel ∈ sellers, sel.peer_id ≠ p := by
  intro events
  induction events with
  | nil =>
    intro s sellers hne hnd h
    exact absurd h (by simp [run])
  | cons e rest ih =>
    intro s sellers hne hnd h
    have hnd0 : discoversPeer p e = false := hnd e (List.mem_cons_self _ _)
    simp only [run] at h
    rcases step_cases s e with ⟨hdone, -⟩ | ⟨s1, hcont, hstep⟩
    · rw [hdone] at h
      injection h with h
      subst h
      intro sel hsel
      exact absurd hsel (List.not_mem_nil sel)
    · have hne1 : ∀ st, (p, st) ∉ s1.asb_quote_status :=
        handleEvent_noEntry p s e s1 hne hcont hnd0
      rw [hstep] at h
      cases htc : terminationCheck s1 <;> rw [htc] at h
      · have := terminationCheck_next s1 _ htc
        subst this
        exact ih _ sellers hne1 (fun e' he' => hnd e' (List.mem_cons_of_mem _ he')) h
      · injection h with h
        subst h
        have hcol := terminationCheck_done s1 _ htc
        obtain ⟨-, hmem⟩ := collectSellers_ok_spec s1.asb_address s1.asb_quote_status _ hcol
        intro sel hsel hpe
        have := (hmem sel hsel).1
        rw [hpe] at this
        exact hne1 (QuoteStatus.received sel.quote) this
      · exact RunResult.noConfusion h

theorem step_continue (s : LoopState) (e : Event) (s1 : LoopState)
    (h : handleEvent s e = .continue_ s1) : step s e = terminationCheck s1 := by
  unfold step
  rw [h]

/-- C5: a quote-exchange failure (outbound or inbound) for peer P leaves
both maps unchanged when P is the rendezvous node; otherwise it removes
exactly P's quote-status entry, touching no other entry of either map.
Consequently a peer that suffers an outbound failure appears in a final
result only if rediscovered afterwards. -/
theorem quote_failure_removes_peer (s : LoopState) (p : PeerId) :
    (handleEvent s (.outboundFailure p) =
      .continue_ (if p = s.rendezvous_peer_id then s
        else { s with asb_quote_status := removeA s.asb_quote_status p })) ∧
    (handleEvent s (.inboundFailure p) =
      .continue_ (if p = s.rendezvous_peer_id then s
        else { s with asb_quote_status := removeA s.asb_quote_status p })) ∧
    lookupA (removeA s.asb_quote_status p) p = none ∧
    (∀ r, r ≠ p → lookupA (removeA s.asb_quote_status p) r = lookupA s.asb_quote_status r) ∧
    (∀ (rest : List Event) (sellers : List Seller),
      p ≠ s.rendezvous_peer_id →
      (∀ e ∈ rest, discoversPeer p e = false) →
      run s (Event.outboundFailure p :: rest) = .finished sellers →
      ∀ sel ∈ sellers, sel.peer_id ≠ p) := by
  refine ⟨?_, ?_, lookupA_removeA_self _ _, fun r hr => lookupA_removeA_ne _ _ _ hr, ?_⟩
  · simp only [handleEvent]
    split <;> simp_all
  · simp only [handleEvent]
    split <;> simp_all
  · intro rest sellers hprid hnd h
    have hcont : handleEvent s (Event.outboundFailure p) =
        .continue_ { s with asb_quote_status := removeA s.asb_quote_status p } := by
      simp only [handleEvent]
      rw [if_neg hprid]
    have hne1 : ∀ st, (p, st) ∉ removeA s.asb_quote_status p := by
      intro st hmem
      exact absurd rfl (mem_removeA _ _ _ hmem).2
    simp only [run] at h
    rw [step_continue s _ _ hcont] at h
    cases htc : terminationCheck
        { s with asb_quote_status := removeA s.asb_quote_status p } <;> rw [htc] at h
    · rw [terminationCheck_next _ _ htc] at h
      exact run_noEntry p rest _ sellers hne1 hnd h
    · injection h with h
      subst h
      have hcol := terminationCheck_done _ _ htc
      obtain ⟨-, hmem⟩ := collectSellers_ok_spec _ _ _ hcol
      intro sel hsel hpe
      have := (hmem sel hsel).1
      rw [hpe] at this
      exact hne1 (QuoteStatus.received sel.quote) this
    · exact RunResult.noConfusion h

/-- A concrete state with one received quote and one pending peer. -/
def sampleFail : LoopState :=
  { rendezvous_peer_id := 0
    rendezvous_addr := [MProtocol.other 9]
    asb_address := [(1, [MProtocol.other 3])]
    asb_quote_status := [(1, QuoteStatus.received 5), (2, QuoteStatus.pending)]
    phase := .waitForQuoteCompletion
    quote_addresses := []
    quote_requests := [] }

theorem quote_failure_removes_peer_witness :
    (2 ≠ sampleFail.rendezvous_peer_id) ∧
    (∀ e ∈ ([] : List Event), discoversPeer 2 e = false) ∧
    run sampleFail [Event.outboundFailure 2]
      = .finished [{ peer_id := 1, multiaddr := [MProtocol.other 3], quote := 5 }] ∧
    (∀ sel ∈ [({ peer_id := 1, multiaddr := [MProtocol.other 3], quote := 5 } : Seller)],
      sel.peer_id ≠ 2) :=
  ⟨by decide, by decide, by decide,
    (quote_failure_removes_peer sampleFail 2).2.2.2.2 [] _ (by decide) (by decide) (by decide)⟩

/-! ## The Received-implies-address invariant -/

/-- C4, counterexample: from the initial state, a discovery of peer 1
followed by a quote response from peer 1 — with no
connection-established event for peer 1 in between (or a quote response
from a peer whose connection-established event was the rendezvous
node's) — drives the loop into the `expect` panic: peer 1's entry is
`Received` but the address map has no entry for it. -/
theorem received_without_address_panics :
    run (initialState 0 [MProtocol.other 9])
      [Event.discovered [(1, [[MProtocol.other 1]])], Event.quoteResponse 1 7]
    = .panicked := by decide

/-- The ordering guarantee the transport layer provides in practice:
every quote response comes from a peer (distinct from the rendezvous
node) whose connection was established earlier in the event sequence.
`connected` accumulates the non-rendezvous peers connected so far. -/
def connSafe (rid : PeerId) : List Event → List PeerId → Bool
  | [], _ => true
  | e :: rest, connected =>
    match e with
    | .connectionEstablished p _ =>
      connSafe rid rest (if p = rid then connected else p :: connected)
    | .quoteResponse p _ => connected.contains p && connSafe rid rest connected
    | _ => connSafe rid rest connected

theorem collectSellers_no_panic (addrs : List (PeerId × Multiaddr)) :
    ∀ status : List (PeerId × QuoteStatus),
      (∀ p q, (p, QuoteStatus.received q) ∈ status → (lookupA addrs p).isSome = true) →
      collectSellers addrs status ≠ .panic := by
  intro status
  induction status with
  | nil => exact fun _ h => CollectResult.noConfusion h
  | cons e rest ih =>
    intro haddr
    obtain ⟨p, st⟩ := e
    cases st with
    | pending => exact fun h => CollectResult.noConfusion h
    | received q =>
      have hp := haddr p q (List.mem_cons_self _ _)
      obtain ⟨a, ha⟩ := Option.isSome_iff_exists.mp hp
      have hrest := ih (fun p' q' hm => haddr p' q' (List.mem_cons_of_mem _ hm))
      intro h
      simp only [collectSellers, ha] at h
      cases hc : collectSellers addrs rest <;> rw [hc] at h
      · exact CollectResult.noConfusion h
      · exact hrest hc
      · exact CollectResult.noConfusion h

theorem terminationCheck_no_panic (s : LoopState)
    (hinv : ∀ p q, (p, QuoteStatus.received q) ∈ s.asb_quote_status →
      (lookupA s.asb_address p).isSome = true) :
    terminationCheck s ≠ .panicked := by
  unfold terminationCheck
  cases hph : s.phase
  · exact fun h => StepResult.noConfusion h
  · cases hc : collectSellers s.asb_address s.asb_quote_status
    · exact fun h => StepResult.noConfusion h
    · exact absurd hc (collectSellers_no_panic _ _ hinv)
    · exact fun h => StepResult.noConfusion h

theorem handleEvent_addr_mono (s : LoopState) (e : Event) (s' : LoopState)
    (h : handleEvent s e = .continue_ s') :
    ∀ p, (lookupA s.asb_address p).isSome = true →
      (lookupA s'.asb_address p).isSome = true := by
  cases e with
  | connectionEstablished peer a =>
    simp only [handleEvent] at h
    split at h <;> (injection h with h; subst h)
    · exact fun p hp => hp
    · exact fun p hp => isSome_lookupA_insertA _ _ _ _ hp
  | unreachableAddr peer a =>
    simp only [handleEvent] at h
    split at h
    · exact HandleResult.noConfusion h
    · injection h with h
      subst h
      exact fun p hp => hp
  | discovered regs =>
    simp only [handleEvent] at h
    injection h with h
    subst h
    obtain ⟨-, -, haddr, -, -⟩ := foldl_handleRegistration_spec regs
      { s with phase := .waitForQuoteCompletion }
    intro p hp
    rw [haddr]
    exact hp
  | quoteResponse peer q =>
    simp only [handleEvent] at h
    split at h <;> (injection h with h; subst h) <;> exact fun p hp => hp
  | outboundFailure peer =>
    simp only [handleEvent] at h
    split at h <;> (injection h with h; subst h) <;> exact fun p hp => hp
  | inboundFailure peer =>
    simp only [handleEvent] at h
    split at h <;> (injection h with h; subst h) <;> exact fun p hp => hp
  | otherEvent =>
    injection h with h
    subst h
    exact fun p hp => hp

theorem handleEvent_preserves_inv (s : LoopState) (e : Event) (s' : LoopState)
    (connected : List PeerId)
    (h : handleEvent s e = .continue_ s')
    (hconn : ∀ p, connected.contains p = true → (lookupA s.asb_address p).isSome = true)
    (hinv : ∀ p q, (p, QuoteStatus.received q) ∈ s.asb_quote_status →
      (lookupA s.asb_address p).isSome = true)
    (hq : ∀ p q, e = .quoteResponse p q → connected.contains p = true) :
    ∀ p q, (p, QuoteStatus.received q) ∈ s'.asb_quote_status →
      (lookupA s'.asb_address p).isSome = true := by
  have hmono := handleEvent_addr_mono s e s' h
  cases e with
  | connectionEstablished peer a =>
    have hst : s'.asb_quote_status = s.asb_quote_status := by
      simp only [handleEvent] at h
      split at h <;> (injection h with h; subst h; rfl)
    intro p q hm
    rw [hst] at hm
    exact hmono p (hinv p q hm)
  | unreachableAddr peer a =>
    simp only [handleEvent] at h
    split at h
    · exact HandleResult.noConfusion h
    · injection h with h
      subst h
      intro p q hm
      exact hinv p q (mem_removeA _ _ _ hm).1
  | discovered regs =>
    simp only [handleEvent] at h
    injection h with h
    subst h
    obtain ⟨-, -, haddr, -, h5⟩ := foldl_handleRegistration_spec regs
      { s with phase := .waitForQuoteCompletion }
    intro p q hm
    rcases h5 (p, QuoteStatus.received q) hm with ⟨reg, -, he⟩ | hm'
    · exact absurd (congrArg Prod.snd he) (by simp)
    · rw [haddr]
      exact hinv p q hm'
  | quoteResponse peer qr =>
    have hpa := hconn peer (hq peer qr rfl)
    simp only [handleEvent] at h
    split at h <;> (injection h with h; subst h)
    · intro p q hm
      simp only [insertA, List.mem_cons] at hm
      rcases hm with hm | hm
      · have hp : p = peer := congrArg Prod.fst hm
        subst hp
        exact hpa
      · exact hinv p q (mem_removeA _ _ _ hm).1
    · intro p q hm
      have hm' := (mem_removeA _ _ _ hm).1
      simp only [insertA, List.mem_cons] at hm'
      rcases hm' with hm' | hm'
      · have hp : p = peer := congrArg Prod.fst hm'
        subst hp
        exact hpa
      · exact hinv p q (mem_removeA _ _ _ hm').1
  | outboundFailure peer =>
    simp only [handleEvent] at h
    split at h <;> (injection h with h; subst h)
    · exact hinv
    · intro p q hm
      exact hinv p q (mem_removeA _ _ _ hm).1
  | inboundFailure peer =>
    simp only [handleEvent] at h
    split at h <;> (injection h with h; subst h)
    · exact hinv
    · intro p q hm
      exact hinv p q (mem_removeA _ _ _ hm).1
  | otherEvent =>
    injection h with h
    subst h
    exact hinv

theorem run_no_panic :
    ∀ (events : List Event) (s : LoopState) (connected : List PeerId),
      connSafe s.rendezvous_peer_id events connected = true →
      (∀ p, connected.contains p = true → (lookupA s.asb_address p).isSome = true) →
      (∀ p q, (p, QuoteStatus.received q) ∈ s.asb_quote_status →
        (lookupA s.asb_address p).isSome = true) →
      run s events ≠ .panicked := by
  intro events
  induction events with
  | nil =>
    intro s connected _ _ _ h
    exact RunResult.noConfusion h
  | cons e rest ih =>
    intro s connected hsafe hconn hinv h
    simp only [run] at h
    rcases step_cases s e with ⟨hdone, -⟩ | ⟨s1, hcont, hstep⟩
    · rw [hdone] at h
      exact RunResult.noConfusion h
    · have hq : ∀ p q, e = .quoteResponse p q → connected.contains p = true := by
        intro p q he
        subst he
        simp only [connSafe, Bool.and_eq_true] at hsafe
        exact hsafe.1
      have hinv1 := handleEvent_preserves_inv s e s1 connected hcont hconn hinv hq
      rw [hstep] at h
      cases htc : terminationCheck s1 <;> rw [htc] at h
      · rw [terminationCheck_next _ _ htc] at h
        have hrid : s1.rendezvous_peer_id = s.rendezvous_peer_id :=
          (handleEvent_config s e s1 hcont).1
        have hmono := handleEvent_addr_mono s e s1 hcont
        cases e with
        | connectionEstablished peer a =>
          by_cases hp : peer = s.rendezvous_peer_id
          · have hs1 : s1 = s := by
              simp only [handleEvent] at hcont
              rw [if_pos hp] at hcont
              injection hcont with hcont
              exact hcont.symm
            subst hs1
            refine ih s1 connected ?_ hconn hinv h
            simp only [connSafe] at hsafe
            rw [if_pos hp] at hsafe
            exact hsafe
          · have hs1 : s1 = { s with asb_address := insertA s.asb_address peer a } := by
              simp only [handleEvent] at hcont
              rw [if_neg hp] at hcont
              injection hcont with hcont
              exact hcont.symm
            refine ih s1 (peer :: connected) ?_ ?_ hinv1 h
            · rw [hrid]
              simp only [connSafe] at hsafe
              rw [if_neg hp] at hsafe
              exact hsafe
            · intro r hr
              rw [hs1]
              simp only [List.contains_cons, Bool.or_eq_true, beq_iff_eq] at hr
              rcases hr with hr | hr
              · subst hr
                rw [lookupA_insertA_self]
                rfl
              · exact isSome_lookupA_insertA _ _ _ _ (hconn r hr)
        | unreachableAddr peer a =>
          refine ih s1 connected ?_ (fun r hr => hmono r (hconn r hr)) hinv1 h
          rw [hrid]
          simpa only [connSafe] using hsafe
        | discovered regs =>
          refine ih s1 connected ?_ (fun r hr => hmono r (hconn r hr)) hinv1 h
          rw [hrid]
          simpa only [connSafe] using hsafe
        | quoteResponse peer qr =>
          refine ih s1 connected ?_ (fun r hr => hmono r (hconn r hr)) hinv1 h
          rw [hrid]
          simp only [connSafe, Bool.and_eq_true] at hsafe
          exact hsafe.2
        | outboundFailure peer =>
          refine ih s1 connected ?_ (fun r hr => hmono r (hconn r hr)) hinv1 h
          rw [hrid]
          simpa only [connSafe] using hsafe
        | inboundFailure peer =>
          refine ih s1 connected ?_ (fun r hr => hmono r (hconn r hr)) hinv1 h
          rw [hrid]
          simpa only [connSafe] using hsafe
        | otherEvent =>
          refine ih s1 connected ?_ (fun r hr => hmono r (hconn r hr)) hinv1 h
          rw [hrid]
          simpa only [connSafe] using hsafe
      · exact RunResult.noConfusion h
      · exact absurd htc (terminationCheck_no_panic s1 hinv1)

/-- C4, amended: started from the initial state, the run never hits the
`expect` panic — every peer with a `Received` entry has an address entry
at every termination check — provided every quote-response event in the
sequence comes from a non-rendezvous peer whose connection-established
event occurred earlier (the ordering the transport layer guarantees).
Without that proviso the panic is reachable
(`received_without_address_panics`). -/
theorem no_panic_of_connected_before_quote (rid : PeerId) (raddr : Multiaddr)
    (events : List Event) (h : connSafe rid events [] = true) :
    run (initialState rid raddr) events ≠ .panicked :=
  run_no_panic events (initialState rid raddr) [] h
    (fun _ hp => Bool.noConfusion hp)
    (fun _ _ hm => absurd hm (List.not_mem_nil _))

theorem no_panic_of_connected_before_quote_witness :
    connSafe 0
      [Event.connectionEstablished 1 [MProtocol.other 1],
       Event.discovered [(1, [[MProtocol.other 1]])],
       Event.quoteResponse 1 7] [] = true ∧
    run (initialState 0 [MProtocol.other 9])
      [Event.connectionEstablished 1 [MProtocol.other 1],
       Event.discovered [(1, [[MProtocol.other 1]])],
       Event.quoteResponse 1 7] ≠ .panicked :=
  ⟨by decide, no_panic_of_connected_before_quote 0 [MProtocol.other 9] _ (by decide)⟩

/-! ## The Discovered handler and address normalization -/

/-- The addresses registered with the quote behaviour by a handler
outcome. -/
def registeredQuoteAddresses : HandleResult → List (PeerId × Multiaddr)
  | .continue_ s => s.quote_addresses
  | .abortEmpty => []

/-- C1: processing a discovery response for peer 5 at the un-suffixed
address `[other 1]` registers the raw address with the quote exchange,
not the suffixed `address_with_p2p` form — the normalized address
(computed and then discarded by the handler) differs from the one
registered. -/
theorem discovered_registers_raw_address :
    registeredQuoteAddresses
      (handleEvent (initialState 0 [MProtocol.other 9])
        (Event.discovered [(5, [[MProtocol.other 1]])]))
      = [(5, [MProtocol.other 1])] ∧
    address_with_p2p 5 [MProtocol.other 1] = [MProtocol.other 1, MProtocol.p2p 5] ∧
    [(5, address_with_p2p 5 [MProtocol.other 1])] ≠ [(5, [MProtocol.other 1])] := by
  refine ⟨by decide, by decide, by decide⟩
